import Mathlib

/-!
Verification development for the FlorisBoard native NLP core (florisboard/nlp).

The definitions below are a shallow embedding of the C++ sources:
  * `src/core/include/core/dictionary_session.hpp` (cost constants),
  * `src/core/include/core/common.hpp` (flags, score bounds, results),
  * `src/core/src/core/dictionary_session.cpp` (fuzzy search, spell, suggest),
  * `src/core/src/core/dictionary.cpp` (dictionary serialization, insertion,
    score adjustment),
  * `src/core/include/core/key_proximity_map.hpp` (proximity lookup),
  * `src/tools/src/tools/prep_wiktextract.cpp` (wiktextract preprocessor).

Graphemes are modelled as an abstract type `G` with decidable equality: the
source treats a grapheme as an opaque byte sequence that compares by equality.
ICU case mapping is external to the repository, so the per-grapheme uppercase
and lowercase maps are parameters `up` and `low`; for concrete runs they are
instantiated on `Char` with `Char.toUpper` / `Char.toLower`, matching ICU on
ASCII.  C++ `int` cost values are all non-negative here and are modelled by
`Nat`; `double` confidence values carry no arithmetic in the source beyond
constant assignment and comparison and are modelled by `Rat`.
-/

namespace FlorisNlp

/-- Cost constants from `dictionary_session.hpp` lines 34-43. -/
def MAX_COST : Nat := 6

/-- Cost of an exact grapheme match. -/
def COST_IS_EQUAL : Nat := 0

/-- Cost of a match up to opposite case. -/
def COST_IS_OPPOSITE_CASE : Nat := 1

/-- Cost of an insertion. -/
def COST_INSERT : Nat := 2

/-- Cost of a deletion. -/
def COST_DELETE : Nat := 2

/-- Default substitution cost. -/
def COST_SUBSTITUTE_DEFAULT : Nat := 2

/-- Substitution cost for keys in proximity. -/
def COST_SUBSTITUTE_IN_PROXIMITY : Nat := 1

/-- Transposition cost constant. -/
def COST_TRANSPOSE : Nat := 1

/-- Default penalty. -/
def PENALTY_DEFAULT : Nat := 0

/-- Penalty applied at the start of the string. -/
def PENALTY_START_OF_STR : Nat := 2

/-- Maximum score, `common.hpp` line 33: `0x00FFFFFF`. -/
def SCORE_MAX : Nat := 0x00FFFFFF

/-- Threshold from `dictionary.hpp` line 147: `SCORE_MAX - 128`. -/
def SCORE_ADJUSTMENT_THRESHOLD : Nat := SCORE_MAX - 128

/-- Request flags, `common.hpp` lines 41-67: a packed integer whose low 8 bits
are the maximum suggestion count, bit 8 allows possibly offensive words and
bit 9 marks a private session. -/
structure SuggestionRequestFlags where
  raw : Nat
deriving DecidableEq, Repr

/-- Low 8 bits of the flags, `common.hpp` lines 54-56. -/
def SuggestionRequestFlags.maxSuggestionCount (f : SuggestionRequestFlags) : Nat :=
  f.raw &&& 0x00FF

/-- Bit 8 of the flags, `common.hpp` lines 57-59. -/
def SuggestionRequestFlags.allowPossiblyOffensive (f : SuggestionRequestFlags) : Bool :=
  f.raw &&& 0x0100 != 0

/-- Per-terminal n-gram data, `trie.hpp` lines 31-35. -/
structure NgramProperties where
  absolute_score : Nat
  is_possibly_offensive : Bool
  is_hidden_by_user : Bool
deriving DecidableEq, Repr

/-- Default-constructed properties (score 0, both flags false). -/
def NgramProperties.default : NgramProperties := ⟨0, false, false⟩

section FuzzySearch

variable {G : Type} [DecidableEq G]

/-- Opposite-case form of one grapheme, `dictionary_session.cpp` lines 242-250:
uppercase if that changes the grapheme, otherwise lowercase.  `up` and `low`
stand for the external ICU case maps. -/
def oppositeCase (up low : G → G) (c : G) : G :=
  if up c ≠ c then up c else low c

/-- The `word_chars_opposite_case` table built by `initWordChars`
(`dictionary_session.cpp` lines 227-258), one entry per query grapheme. -/
def initWordCharsOppositeCase (up low : G → G) (w : List G) : List G :=
  w.map (oppositeCase up low)

/-- Substitution cost for the matrix cell `(p+1, i+1)` (prefix depth `p+1`,
word position `i+1`), from `dictionary_session.cpp` lines 172-193.  `g` is the
grapheme descended to (`chstr`), `c` is `word_chars[i+1]`, `oc` is
`word_chars_opposite_case[i+1]`, `pchars` lists the trie-path graphemes so that
`pchars.get? (p-1)` is `prefix_chars[p]`, and `w` lists the query graphemes so
that `w.get? (i-1)` is `word_chars[i]`. -/
def substitutionCost (w pchars : List G) (g c oc : G) (p i : Nat) : Nat :=
  let penalty := if p = 0 ∧ i = 0 then PENALTY_START_OF_STR else PENALTY_DEFAULT
  if c = g then COST_IS_EQUAL
  else if oc = g then COST_IS_OPPOSITE_CASE
  else if 0 < p ∧ 0 < i ∧ pchars.get? (p - 1) = some c ∧ w.get? (i - 1) = some g then
    COST_TRANSPOSE - 1 + penalty
  else COST_SUBSTITUTE_DEFAULT + penalty

/-- Row `p + 1` of the distance matrix, given row `p` as the function `prev`:
column 0 is `(p + 1) * COST_INSERT` (`dictionary_session.cpp` line 165), and
cell `i + 1` is the minimum of deletion, insertion and substitution (lines
195-198).  Out-of-range cells (the code never reads them) default to 0. -/
def distRowSucc (w wOpp pchars : List G) (prev : Nat → Nat) (p : Nat) : Nat → Nat
  | 0 => (p + 1) * COST_INSERT
  | i + 1 =>
    match pchars.get? p, w.get? i, wOpp.get? i with
    | some g, some c, some oc =>
      min (min (prev (i + 1) + COST_INSERT)
               (distRowSucc w wOpp pchars prev p i + COST_DELETE))
          (prev i + substitutionCost w pchars g c oc p i)
    | _, _, _ => 0

/-- The dynamic-programming matrix `distances[p][i]` maintained by
`FuzzySearchState::setPrefixChstrAt` (`dictionary_session.cpp` lines 161-205),
row by row: row 0 is `i * COST_INSERT` (lines 200-204) and each later row
follows `distRowSucc`. -/
def distRow (w wOpp pchars : List G) : Nat → Nat → Nat
  | 0 => fun i => i * COST_INSERT
  | p + 1 => distRowSucc w wOpp pchars (distRow w wOpp pchars p) p

/-- Cell `distances[p][i]` of the matrix. -/
def dist (w wOpp pchars : List G) (p i : Nat) : Nat :=
  distRow w wOpp pchars p i

/-- The value `distances[p][word_chars.size() - 1]`,
`dictionary_session.cpp` lines 207-209. -/
def editDistanceAt (w wOpp pchars : List G) (p : Nat) : Nat :=
  dist w wOpp pchars p w.length

/-- Dead-end check, `dictionary_session.cpp` lines 219-225: below the last row
index compare the diagonal cell against `max_distance`, otherwise compare the
full edit distance.  `word_chars.size() - 1` equals `w.length` because
`word_chars` carries a sentinel at index 0. -/
def isDeadEndAt (w wOpp pchars : List G) (maxDistance p : Nat) : Bool :=
  if p < w.length then maxDistance ≤ dist w wOpp pchars p p
  else maxDistance ≤ editDistanceAt w wOpp pchars p

end FuzzySearch

/-- Trie node.  The class named `TrieNode` used by `dictionary.cpp` and
`dictionary_session.cpp` has no header in the repository; its shape is modelled
from spec section 4.2 and from the in-repo revision `basic_trie_node`
(`include/core/trie.hpp` lines 90-263): a terminal flag, per-terminal
properties, children in ascending key order, and an optional owned
subsequent-words trie. -/
inductive TrieNode (G : Type) where
  | mk (is_terminal : Bool) (properties : NgramProperties)
       (children : List (G × TrieNode G)) (subsequentWords : Option (TrieNode G))

namespace TrieNode

variable {G : Type} [DecidableEq G]

/-- Terminal flag of a node. -/
def is_terminal : TrieNode G → Bool
  | mk t _ _ _ => t

/-- Properties of a node. -/
def properties : TrieNode G → NgramProperties
  | mk _ ps _ _ => ps

/-- Children of a node, in ascending key order. -/
def children : TrieNode G → List (G × TrieNode G)
  | mk _ _ cs _ => cs

/-- Subsequent-words trie of a node. -/
def subsequentWords : TrieNode G → Option (TrieNode G)
  | mk _ _ _ sw => sw

/-- An empty non-terminal node. -/
def empty : TrieNode G := mk false NgramProperties.default [] none

/-- Modelled from the spec: `resolve(key)` walks child nodes along the key and
returns the node reached, or none; matches `resolve_key_or_null`
(`include/core/trie.hpp` lines 191-198). -/
def resolveKey : TrieNode G → List G → Option (TrieNode G)
  | n, [] => some n
  | n, c :: cs =>
    match n.children.lookup c with
    | some child => resolveKey child cs
    | none => none

end TrieNode

section Session

variable {G : Type} [DecidableEq G]

/-- One fuzzy-search emission: the accumulated path (the suggested word as a
grapheme sequence), the node's properties and the cost. -/
abbrev SearchResult (G : Type) := List G × NgramProperties × Nat

/-- Search modes, `dictionary_session.hpp` lines 75-79. -/
inductive FuzzySearchType where
  | Proximity
  | ProximityWithoutSelf
  | ProximityOrPrefix
deriving DecidableEq, Repr

mutual

/-- The recursive walk `fuzzySearchRecursiveDld` of `dictionary_session.cpp`
lines 46-70, with the mutable state threaded explicitly: `pchars` is the
current trie path (so `pchars.length` is `prefix_index`), results are returned
in emission order.  Exactly as in the source, the `type` field of the state is
stored but never consulted, and emission happens before the dead-end check. -/
def fuzzySearchRecursiveDld (type : FuzzySearchType) (flags : SuggestionRequestFlags)
    (maxDistance : Nat) (w wOpp : List G) :
    TrieNode G → List G → List (SearchResult G)
  | TrieNode.mk term props cs _sw, pchars =>
    (if editDistanceAt w wOpp pchars pchars.length ≤ maxDistance ∧ term then
      if (props.is_possibly_offensive ∧ ¬ flags.allowPossiblyOffensive) ∨
          props.is_hidden_by_user then []
      else if pchars ≠ [] then [(pchars, props, editDistanceAt w wOpp pchars pchars.length)]
      else []
    else []) ++
    (if isDeadEndAt w wOpp pchars maxDistance pchars.length then []
     else fuzzySearchChildren type flags maxDistance w wOpp cs pchars)

/-- Iteration over the children list in `dictionary_session.cpp` lines 66-69. -/
def fuzzySearchChildren (type : FuzzySearchType) (flags : SuggestionRequestFlags)
    (maxDistance : Nat) (w wOpp : List G) :
    List (G × TrieNode G) → List G → List (SearchResult G)
  | [], _ => []
  | (g, child) :: rest, pchars =>
    fuzzySearchRecursiveDld type flags maxDistance w wOpp child (pchars ++ [g]) ++
    fuzzySearchChildren type flags maxDistance w wOpp rest pchars

end

/-- The driver `fuzzySearch`, `dictionary_session.cpp` lines 72-80: returns
nothing on an empty word, otherwise initializes the state (building the
opposite-case table from the external case maps `up` and `low`) and starts the
recursion at the root with depth 0. -/
def fuzzySearch (up low : G → G) (root : TrieNode G) (type : FuzzySearchType)
    (maxDistance : Nat) (flags : SuggestionRequestFlags) (w : List G) :
    List (SearchResult G) :=
  if w = [] then []
  else fuzzySearchRecursiveDld type flags maxDistance w
    (initWordCharsOppositeCase up low w) root []

/-- Suggestion candidate, `common.hpp` lines 76-83, restricted to the fields
the session writes: text, edit distance and confidence. -/
structure SuggestionCandidate (G : Type) where
  text : List G
  edit_distance : Nat
  confidence : Rat
deriving DecidableEq, Repr

/-- Comparator `suggestions_sorter`, `dictionary_session.cpp` lines 82-88. -/
def suggestionsSorter (a b : SuggestionCandidate G) : Bool :=
  if a.edit_distance = b.edit_distance then b.confidence < a.confidence
  else decide (a.edit_distance < b.edit_distance) && decide (b.confidence < a.confidence * 100)

/-- One iteration of the result-collecting callback shared by `spell` and
`suggest` (`dictionary_session.cpp` lines 104-117 and 136-148): push the
candidate, sort, and drop the last entry when the list exceeds
`flags.maxSuggestionCount()`.  `std::sort` is modelled by insertion sort with
the source's comparator; every property proved below is invariant under the
choice of permutation for ties. -/
def pushCandidate (maxCount : Nat) (results : List (SuggestionCandidate G))
    (c : SuggestionCandidate G) : List (SuggestionCandidate G) :=
  let sorted := (results ++ [c]).insertionSort (fun a b => suggestionsSorter a b)
  if maxCount < sorted.length then sorted.dropLast else sorted

/-- Spelling result, `common.hpp` lines 94-127, with its attribute codes. -/
structure SpellingResult (G : Type) where
  suggestion_attributes : Nat
  suggestions : List (List G)
deriving DecidableEq, Repr

/-- Attribute `RESULT_UNSPECIFIED`. -/
def RESULT_UNSPECIFIED : Nat := 0x0000

/-- Attribute `RESULT_ATTR_IN_THE_DICTIONARY`. -/
def RESULT_ATTR_IN_THE_DICTIONARY : Nat := 0x0001

/-- Attribute `RESULT_ATTR_LOOKS_LIKE_TYPO`. -/
def RESULT_ATTR_LOOKS_LIKE_TYPO : Nat := 0x0002

/-- Constructor `SpellingResult::unspecified()`. -/
def SpellingResult.unspecified (G : Type) : SpellingResult G :=
  ⟨RESULT_UNSPECIFIED, []⟩

/-- Constructor `SpellingResult::validWord()`. -/
def SpellingResult.validWord (G : Type) : SpellingResult G :=
  ⟨RESULT_ATTR_IN_THE_DICTIONARY, []⟩

/-- Constructor `SpellingResult::typo(suggestions)` with the default
`is_high_confidence_result = false`. -/
def SpellingResult.typo (suggestions : List (List G)) : SpellingResult G :=
  ⟨RESULT_ATTR_LOOKS_LIKE_TYPO, suggestions⟩

/-- The candidate list accumulated by the fuzzy-search callback of `spell`
(`dictionary_session.cpp` lines 102-117).  The confidence is the constant
`1.0` from line 105; the normalization by `max_unigram_score` is present only
as a comment in the source (lines 106-107). -/
def spellCandidates (up low : G → G) (root : TrieNode G)
    (flags : SuggestionRequestFlags) (w : List G) : List (SuggestionCandidate G) :=
  (fuzzySearch up low root FuzzySearchType.ProximityWithoutSelf MAX_COST flags w).foldl
    (fun results r => pushCandidate flags.maxSuggestionCount results
      ⟨r.1, r.2.2, 1⟩) []

/-- The exact-membership test of `spell`, `dictionary_session.cpp` lines
97-99: the word resolves to a terminal node of base dictionary 0's root. -/
def isWordInTrie (root : TrieNode G) (w : List G) : Bool :=
  match root.resolveKey w with
  | some node => node.is_terminal
  | none => false

/-- `DictionarySession::spell`, `dictionary_session.cpp` lines 90-125, for a
session whose base dictionary 0 has root trie `root`. -/
def spell (up low : G → G) (root : TrieNode G) (w : List G)
    (flags : SuggestionRequestFlags) : SpellingResult G :=
  if w = [] then SpellingResult.unspecified G
  else
    match root.resolveKey w with
    | some node =>
      if node.is_terminal then SpellingResult.validWord G
      else SpellingResult.typo ((spellCandidates up low root flags w).map (·.text))
    | none => SpellingResult.typo ((spellCandidates up low root flags w).map (·.text))

/-- `DictionarySession::suggest`, `dictionary_session.cpp` lines 127-149:
clears the results, returns on an empty word, otherwise accumulates candidates
from a `ProximityOrPrefix` search (confidence again the constant `1.0` of line
137, the normalization being commented out on line 138). -/
def suggest (up low : G → G) (root : TrieNode G) (w : List G)
    (flags : SuggestionRequestFlags) : List (SuggestionCandidate G) :=
  if w = [] then []
  else (fuzzySearch up low root FuzzySearchType.ProximityOrPrefix MAX_COST flags w).foldl
    (fun results r => pushCandidate flags.maxSuggestionCount results
      ⟨r.1, r.2.2, 1⟩) []

end Session

section DictionaryLayer

/-- Whitespace test used by `fl::str::trim` (`string.cpp` lines 65-70); ICU's
`u_isWhitespace` restricted to the ASCII range, which covers every string the
serializer emits. -/
def isWhitespaceChar (c : Char) : Bool :=
  c = ' ' ∨ c = '\t' ∨ c = '\n' ∨ c = '\x0b' ∨ c = '\x0c' ∨ c = '\r'

/-- `fl::str::trim`, `string.cpp` lines 67-70: strip whitespace from both
ends. -/
def trim (s : String) : String :=
  String.mk (((s.toList.dropWhile isWhitespaceChar).reverse.dropWhile
    isWhitespaceChar).reverse)

/-- Helper of `strSplit`: walk the characters, cutting at each delimiter. -/
def strSplitAux (delim : Char) : List Char → List Char → List String
  | [], acc => [String.mk acc.reverse]
  | c :: cs, acc =>
    if c = delim then String.mk acc.reverse :: strSplitAux delim cs []
    else strSplitAux delim cs (c :: acc)

/-- `fl::str::split` by a single character, `string.cpp` lines 83-92: the
pieces between delimiter occurrences, including empty pieces. -/
def strSplit (s : String) (delim : Char) : List String :=
  strSplitAux delim s.toList []

/-- `starts_with` on the first character. -/
def strStartsWith (s : String) (c : Char) : Bool :=
  match s.toList with
  | [] => false
  | h :: _ => h = c

/-- `std::stoi` restricted to the unsigned decimal digit strings that the
serializer emits for scores. -/
def stoiNat (s : String) : Nat :=
  (s.toList.takeWhile Char.isDigit).foldl (fun a c => a * 10 + (c.toNat - '0'.toNat)) 0

/-- Default schema URL, `dictionary.hpp` line 54. -/
def FLDIC_SCHEMA_V0_DRAFT1 : String :=
  "https://florisboard.org/schemas/fldic/v0~draft1/dictionary.txt"

/-- Dictionary header, `dictionary.hpp` lines 72-83.  Locales are kept as the
BCP 47 tag strings; the ICU `Locale` round-trip is external to the repository
and is modelled as the identity on tags. -/
structure DictionaryHeader where
  schema : String
  name : String
  locales : List String
  generated_by : String
deriving DecidableEq, Repr

/-- A freshly constructed header (`schema` defaults per `dictionary.hpp` line
73, every other field empty). -/
def DictionaryHeader.init : DictionaryHeader := ⟨FLDIC_SCHEMA_V0_DRAFT1, "", [], ""⟩

/-- `DictionaryHeader::readFrom`, `dictionary.cpp` lines 29-66: consume lines
until the first blank line, parsing `key=value` pairs, skipping lines without
`=` or with an empty value, ignoring unknown keys.  Returns the header and the
unconsumed lines. -/
def headerReadFrom : List String → DictionaryHeader → DictionaryHeader × List String
  | [], h => (h, [])
  | line :: rest, h =>
    let l := trim line
    if l = "" then (h, rest)
    else
      match l.toList.findIdx? (· = '=') with
      | none => headerReadFrom rest h
      | some i =>
        let key := trim (String.mk (l.toList.take i))
        let value := trim (String.mk (l.toList.drop (i + 1)))
        if value = "" then headerReadFrom rest h
        else if key = "schema" then headerReadFrom rest { h with schema := value }
        else if key = "name" then headerReadFrom rest { h with name := value }
        else if key = "locales" then
          headerReadFrom rest { h with locales := strSplit value ',' }
        else if key = "generated_by" then
          headerReadFrom rest { h with generated_by := value }
        else headerReadFrom rest h

/-- `DictionaryHeader::writeTo`, `dictionary.cpp` lines 68-89: schema line,
name line, a locales line only when the joined tag list is non-empty, the
generated-by line, then a blank line. -/
def headerWriteTo (h : DictionaryHeader) : List String :=
  let locale_tags := String.intercalate "," h.locales
  ["schema=" ++ h.schema, "name=" ++ h.name] ++
  (if locale_tags = "" then [] else ["locales=" ++ locale_tags]) ++
  ["generated_by=" ++ h.generated_by, ""]

/-- One navigation step inside the tree of tries: descend to a child by key,
or descend into the subsequent-words trie.  Node addresses (lists of steps)
stand in for the C++ node pointers cached by the deserializer. -/
inductive TrieStep where
  | child (c : Char)
  | subs
deriving DecidableEq, Repr

/-- Child-list update in ascending key order: apply `f` to the child at `c`,
creating it (from an empty node) at its sorted position if absent.  This is the
functional form of `get_child_or_create` over the by-byte-indexed child array
of `include/core/trie.hpp` lines 171-179. -/
def updateChild : List (Char × TrieNode Char) → Char →
    (TrieNode Char → TrieNode Char) → List (Char × TrieNode Char)
  | [], c, f => [(c, f TrieNode.empty)]
  | (k, n) :: rest, c, f =>
    if c = k then (k, f n) :: rest
    else if c < k then (c, f TrieNode.empty) :: (k, n) :: rest
    else (k, n) :: updateChild rest c f

/-- Apply `f` to the node at the given address, creating intermediate child
nodes and subsequent-words tries on demand (`resolve_key_or_create` and
`subsequent_words_or_create` semantics). -/
def modifyAt (t : TrieNode Char) : List TrieStep → (TrieNode Char → TrieNode Char) →
    TrieNode Char
  | [], f => f t
  | TrieStep.child c :: rest, f =>
    TrieNode.mk t.is_terminal t.properties
      (updateChild t.children c (fun n => modifyAt n rest f)) t.subsequentWords
  | TrieStep.subs :: rest, f =>
    TrieNode.mk t.is_terminal t.properties t.children
      (some (modifyAt (t.subsequentWords.getD TrieNode.empty) rest f))

/-- The child-step address of a word. -/
def childSteps (w : List Char) : List TrieStep := w.map TrieStep.child

/-- Mark a node terminal, keeping its other fields (`resolve_key_or_create`,
`include/core/trie.hpp` lines 200-209). -/
def markTerminal (t : TrieNode Char) : TrieNode Char :=
  TrieNode.mk true t.properties t.children t.subsequentWords

/-- Mark a node terminal and overwrite its properties, as done by the
deserializer right after `insert` (`dictionary.cpp` lines 184-185). -/
def setTerminalProps (props : NgramProperties) (t : TrieNode Char) : TrieNode Char :=
  TrieNode.mk true props t.children t.subsequentWords

/-- Ensure the subsequent-words trie of the node at `addr` exists
(`subsequentWordsOrCreate`). -/
def ensureSubs (t : TrieNode Char) (addr : List TrieStep) : TrieNode Char :=
  modifyAt t addr (fun n =>
    TrieNode.mk n.is_terminal n.properties n.children
      (some (n.subsequentWords.getD TrieNode.empty)))

/-- Dictionary state, `dictionary.hpp` lines 85-120 (header, root trie and the
three max-score accumulators; the shortcuts map and file paths play no role in
the claims). -/
structure Dictionary where
  header : DictionaryHeader
  root_node : TrieNode Char
  max_unigram_score : Nat
  max_bigram_score : Nat
  max_trigram_score : Nat

/-- A freshly constructed dictionary (`dictionary.cpp` lines 104-105 set all
three accumulators to 0). -/
def Dictionary.init : Dictionary :=
  ⟨DictionaryHeader.init, TrieNode.empty, 0, 0, 0⟩

/-- Running state of the deserializer body loop: the dictionary being built,
the previous n-gram level, and the `prev_parent_nodes` slot array
(`dictionary.cpp` lines 124-125), holding node addresses instead of node
pointers. -/
structure DeserializeState where
  dict : Dictionary
  prevLevel : Nat
  slots : List (Option (List TrieStep))

/-- Flag parsing, `dictionary.cpp` lines 171-180. -/
def parseFlags (s : String) : NgramProperties → NgramProperties :=
  fun props => s.toList.foldl (fun ps f =>
    if f = 'o' then { ps with is_possibly_offensive := true }
    else if f = 'h' then { ps with is_hidden_by_user := true }
    else ps) props

/-- One iteration of the deserializer body loop, `dictionary.cpp` lines
126-194.  Faithful to the cited revision: after a node is inserted the slot
array is NOT updated (the sibling revision `src/core/src/nlp/dictionary.cpp`
line 177 refreshes `prev_parent_nodes[ngram_level]` here), so a missing slot
for level L is populated once with the subsequent-words trie of the node
cached at level L-1 — for L = 2 that is the root node itself. -/
def deserializeLine (st : DeserializeState) (line : String) : Except String DeserializeState := do
  if strStartsWith line '[' then return st
  let tabs := (line.toList.takeWhile (· = '\t')).length
  let ngramLevel := tabs + 1
  if ngramLevel > 8 then throw "Cannot read/process ngram levels greater than 8!"
  let rest := String.mk (line.toList.drop tabs)
  if ngramLevel > st.prevLevel + 1 then throw "Invalid definition of n-gram or bad formatting!"
  let (st, parent) ←
    match st.slots.getD (ngramLevel - 1) none with
    | some addr => pure (st, addr)
    | none =>
      if ngramLevel ≤ 1 then
        throw "Encountered an ngram which does not have a corresponding parent!"
      else
        match st.slots.getD (ngramLevel - 2) none with
        | some paddr =>
          let addr := paddr ++ [TrieStep.subs]
          let dict := { st.dict with root_node := ensureSubs st.dict.root_node paddr }
          pure ({ st with dict := dict, slots := st.slots.set (ngramLevel - 1) (some addr) }, addr)
        | none => throw "null parent node"
  let parts := strSplit rest '\t'
  if parts.length < 2 then return st
  let word := trim (parts.getD 0 "")
  if word = "" then return st
  let score := stoiNat (trim (parts.getD 1 ""))
  let props := parseFlags (if parts.length > 2 then trim (parts.getD 2 "") else "")
    { absolute_score := score, is_possibly_offensive := false, is_hidden_by_user := false }
  let root := modifyAt st.dict.root_node (parent ++ childSteps word.toList)
    (setTerminalProps props)
  let dict := { st.dict with root_node := root }
  let dict :=
    if ngramLevel = 1 ∧ dict.max_unigram_score < score then
      { dict with max_unigram_score := score }
    else if ngramLevel = 2 ∧ dict.max_bigram_score < score then
      { dict with max_bigram_score := score }
    else if ngramLevel = 3 ∧ dict.max_trigram_score < score then
      { dict with max_trigram_score := score }
    else dict
  return { st with dict := dict, prevLevel := ngramLevel }

/-- `Dictionary::deserialize`, `dictionary.cpp` lines 118-195: read the
header, then run the body loop over the remaining lines with
`prev_ngram_level = 1` and `prev_parent_nodes = {&root_node, nullptr, ...}`. -/
def deserialize (lines : List String) : Except String Dictionary := do
  let (h, rest) := headerReadFrom lines DictionaryHeader.init
  let init : DeserializeState :=
    ⟨{ Dictionary.init with header := h }, 1, some [] :: List.replicate 8 none⟩
  let final ← rest.foldlM deserializeLine init
  return final.dict

/-- Text of one word line: level-1 leading tabs, the word, the score, and a
flags column only when a flag is set (`dictionary.cpp` lines 207-222). -/
def wordLine (ngramLevel : Nat) (word : List Char) (props : NgramProperties) : String :=
  String.mk (List.replicate (ngramLevel - 1) '\t') ++ String.mk word ++ "\t" ++
  toString props.absolute_score ++
  (if props.is_possibly_offensive ∨ props.is_hidden_by_user then
    "\t" ++ (if props.is_possibly_offensive then "o" else "") ++
    (if props.is_hidden_by_user then "h" else "")
  else "")

mutual

/-- `Dictionary::trieWriteNgramsTo` fused with `TrieNode::forEach`
(`dictionary.cpp` lines 203-225): for every terminal, in ascending key order
and skipping control-character keys, emit its word line and then recursively
the lines of its subsequent-words trie at the next level. -/
def trieWriteNgramsTo : TrieNode Char → Nat → List Char → List String
  | TrieNode.mk term props cs sw, ngramLevel, acc =>
    (if term then
      wordLine ngramLevel acc props ::
      (match sw with
       | some sub => trieWriteNgramsTo sub (ngramLevel + 1) []
       | none => [])
    else []) ++ trieWriteNgramsToChildren cs ngramLevel acc

/-- Child iteration of the emission walk, ascending key order, skipping keys
below `0x20` (`include/core/trie.hpp` lines 117-123). -/
def trieWriteNgramsToChildren : List (Char × TrieNode Char) → Nat → List Char → List String
  | [], _, _ => []
  | (c, child) :: rest, ngramLevel, acc =>
    (if c.toNat < 0x20 then [] else trieWriteNgramsTo child ngramLevel (acc ++ [c])) ++
    trieWriteNgramsToChildren rest ngramLevel acc

end

/-- `Dictionary::serialize`, `dictionary.cpp` lines 197-201: header, the
`[words]` section marker, then the n-gram body from the root at level 1. -/
def serialize (d : Dictionary) : List String :=
  headerWriteTo d.header ++ ["[words]"] ++ trieWriteNgramsTo d.root_node 1 []

/-- `MutableDictionary::adjustScoresIfNecessary`, `dictionary.cpp` lines
248-283: the entire threshold test and halving traversal is commented out in
the source (both in this file and in `src/core/src/nlp/dictionary.cpp` lines
226-261), so the call leaves the dictionary untouched and returns `true`. -/
def adjustScoresIfNecessary (d : Dictionary) : Dictionary × Bool :=
  (d, true)

/-- `MutableDictionary::insert(word1)`, `dictionary.cpp` lines 285-289:
create/mark the unigram terminal.  The returned `NgramProperties&` is modelled
by addressing later mutations with the word (see `MutOp.inc1`).  None of the
accumulators `max_*_score` is touched. -/
def insertWord1 (d : Dictionary) (w : List Char) : Dictionary :=
  { d with root_node := modifyAt d.root_node (childSteps w) markTerminal }

/-- `MutableDictionary::insert(word1, word2)`, `dictionary.cpp` lines
291-297. -/
def insertWords2 (d : Dictionary) (w1 w2 : List Char) : Dictionary :=
  let root := modifyAt (modifyAt d.root_node (childSteps w1) markTerminal)
    (childSteps w1 ++ [TrieStep.subs] ++ childSteps w2) markTerminal
  { d with root_node := root }

/-- `MutableDictionary::insert(word1, word2, word3)`, `dictionary.cpp` lines
299-311. -/
def insertWords3 (d : Dictionary) (w1 w2 w3 : List Char) : Dictionary :=
  let root := modifyAt (modifyAt (modifyAt d.root_node (childSteps w1) markTerminal)
      (childSteps w1 ++ [TrieStep.subs] ++ childSteps w2) markTerminal)
    (childSteps w1 ++ [TrieStep.subs] ++ childSteps w2 ++ [TrieStep.subs] ++
      childSteps w3) markTerminal
  { d with root_node := root }

/-- A score increment performed through the `NgramProperties&` returned by
`insert(word1)`, as done by the wiktextract preprocessor
(`prep_wiktextract.cpp` lines 144-145 and 286-292). -/
def incScore1 (d : Dictionary) (w : List Char) (delta : Nat) : Dictionary :=
  { d with root_node := modifyAt d.root_node (childSteps w) (fun n =>
      TrieNode.mk n.is_terminal
        { n.properties with absolute_score := n.properties.absolute_score + delta }
        n.children n.subsequentWords) }

/-- One mutation of a mutable dictionary: an insert at some n-gram level, or a
score increment through a reference returned by `insert(word1)`. -/
inductive MutOp where
  | ins1 (w : List Char)
  | ins2 (w1 w2 : List Char)
  | ins3 (w1 w2 w3 : List Char)
  | inc1 (w : List Char) (delta : Nat)

/-- Apply one mutation. -/
def applyMutOp (d : Dictionary) : MutOp → Dictionary
  | MutOp.ins1 w => insertWord1 d w
  | MutOp.ins2 w1 w2 => insertWords2 d w1 w2
  | MutOp.ins3 w1 w2 w3 => insertWords3 d w1 w2 w3
  | MutOp.inc1 w delta => incScore1 d w delta

/-- Apply a sequence of mutations. -/
def applyMutOps (d : Dictionary) (ops : List MutOp) : Dictionary :=
  ops.foldl applyMutOp d

end DictionaryLayer

section ProximityMap

/-- `key_proximity_map::is_in_proximity`, `key_proximity_map.hpp` lines 41-47:
true iff `actual` has an entry whose surrounding-keys list contains `assumed`.
The `std::map` is modelled as an association list with unique keys. -/
def isInProximity (data : List (String × List String)) (assumed actual : String) : Bool :=
  match data.lookup actual with
  | some surrounding_keys => assumed ∈ surrounding_keys
  | none => false

end ProximityMap

section Wiktextract

/-- Depth cap for the plain merged evaluator, `prep_wiktextract.cpp` line 44. -/
def MERGING_MAX_DEPTH : Nat := 0

/-- Depth cap for the form-of-aware merged evaluator, `prep_wiktextract.cpp`
line 45. -/
def MERGING_MAX_DEPTH_WITH_FO : Nat := 2

/-- Per-(word, pos) evidence, `prep_wiktextract.cpp` lines 98-117.  The C++
counters are `short`; all values arising here are small and non-negative, so
they are modelled by `Nat`. -/
structure WordEvaluator where
  form_ofs : List String
  exclusion_count : Nat
  offensive_count : Nat
  normal_count : Nat
deriving DecidableEq, Repr

/-- `word_evaluator::is_word_excluded`, `prep_wiktextract.cpp` lines 110-112. -/
def WordEvaluator.is_word_excluded (ev : WordEvaluator) : Bool :=
  ev.offensive_count ≤ ev.exclusion_count ∧ ev.normal_count ≤ ev.exclusion_count

/-- `word_evaluator::is_word_offensive`, `prep_wiktextract.cpp` lines 114-116. -/
def WordEvaluator.is_word_offensive (ev : WordEvaluator) : Bool :=
  ev.normal_count ≤ ev.offensive_count

/-- The evaluator with all counters zero. -/
def WordEvaluator.zero : WordEvaluator := ⟨[], 0, 0, 0⟩

/-- The per-word map from part of speech to evaluator. -/
abbrev PosMap := List (String × WordEvaluator)

/-- `parsed_data`, `prep_wiktextract.cpp` line 128: word to pos-map.  The
`std::map`s are modelled as association lists with unique keys. -/
abbrev ParsedData := List (String × PosMap)

/-- `wiktextract_preprocessor::merge_evaluator_counts`, `prep_wiktextract.cpp`
lines 157-171: add `(depth + 1)` times the counts of `posEv` to `target`,
then, below the depth cap, recurse into the referenced base forms that have an
entry for the same part of speech. -/
def mergeEvaluatorCountsAux (pd : ParsedData) (pos : String) :
    Nat → Nat → WordEvaluator → WordEvaluator → WordEvaluator
  | remaining, depth, target, posEv =>
    let t : WordEvaluator :=
      { target with
        exclusion_count := target.exclusion_count + (depth + 1) * posEv.exclusion_count
        offensive_count := target.offensive_count + (depth + 1) * posEv.offensive_count
        normal_count := target.normal_count + (depth + 1) * posEv.normal_count }
    match remaining with
    | 0 => t
    | remaining + 1 =>
      posEv.form_ofs.foldl (fun acc form_of =>
        match pd.lookup form_of with
        | some posMap =>
          match posMap.lookup pos with
          | some pev => mergeEvaluatorCountsAux pd pos remaining (depth + 1) acc pev
          | none => acc
        | none => acc) t

/-- Entry point matching the C++ signature: the recursion depth budget
`maxDepth - depth` plays the role of the `depth >= max_depth` cutoff (checked
after the counts are added, exactly as in lines 159-162). -/
def mergeEvaluatorCounts (pd : ParsedData) (pos : String) (maxDepth depth : Nat)
    (target posEv : WordEvaluator) : WordEvaluator :=
  mergeEvaluatorCountsAux pd pos (maxDepth - depth) depth target posEv

/-- The plain merged evaluator of one word (`prep_wiktextract.cpp` lines
267-273, the `MERGING_MAX_DEPTH` call): counts summed over all its parts of
speech with no form-of traversal. -/
def mergedPlain (pd : ParsedData) (posMap : PosMap) : WordEvaluator :=
  posMap.foldl (fun acc e => mergeEvaluatorCounts pd e.1 MERGING_MAX_DEPTH 0 acc e.2)
    WordEvaluator.zero

/-- The form-of-aware merged evaluator of one word (`prep_wiktextract.cpp`
lines 267-273, the `MERGING_MAX_DEPTH_WITH_FO` call). -/
def mergedWithFo (pd : ParsedData) (posMap : PosMap) : WordEvaluator :=
  posMap.foldl (fun acc e => mergeEvaluatorCounts pd e.1 MERGING_MAX_DEPTH_WITH_FO 0 acc e.2)
    WordEvaluator.zero

/-- `wiktextract_preprocessor::validate_word`, `prep_wiktextract.cpp` lines
149-155: every codepoint alphabetic or apostrophe or hyphen.  ICU's
`u_isalpha` is external and passed in as `isAlpha`. -/
def validateWord (isAlpha : Char → Bool) (word : String) : Bool :=
  word.toList.all (fun c => isAlpha c || c = '\'' || c = '-')

/-- Outcome of the per-word decision in the insertion loop,
`prep_wiktextract.cpp` lines 275-294. -/
inductive WordClass where
  | excluded
  | offensive (count : Nat)
  | normal (count : Nat)
deriving DecidableEq, Repr

/-- The per-word decision of the insertion loop, `prep_wiktextract.cpp` lines
275-294: excluded when either merged evaluator reports exclusion or the word
fails validation; otherwise offensive or normal per the form-of-aware
evaluator, carrying the count added to the score. -/
def classifyWord (pd : ParsedData) (isAlpha : Char → Bool) (word : String)
    (posMap : PosMap) : WordClass :=
  if (mergedPlain pd posMap).is_word_excluded || (mergedWithFo pd posMap).is_word_excluded then
    WordClass.excluded
  else if ¬ validateWord isAlpha word then WordClass.excluded
  else if (mergedWithFo pd posMap).is_word_offensive then
    WordClass.offensive (mergedWithFo pd posMap).offensive_count
  else WordClass.normal (mergedWithFo pd posMap).normal_count

/-- Mark the unigram at `w` possibly offensive (the assignment
`properties.is_possibly_offensive = true` of `prep_wiktextract.cpp` line
288, through the reference returned by `insert`). -/
def setOffensive1 (d : Dictionary) (w : List Char) : Dictionary :=
  { d with root_node := modifyAt d.root_node (childSteps w) (fun n =>
      TrieNode.mk n.is_terminal
        { n.properties with is_possibly_offensive := true } n.children n.subsequentWords) }

/-- Dictionary effect of one classified word, `prep_wiktextract.cpp` lines
275-294: excluded words are skipped; kept words are inserted and their score
incremented by the dominant count, offensive ones also flagged. -/
def insertClassifiedWord (d : Dictionary) (word : String) : WordClass → Dictionary
  | WordClass.excluded => d
  | WordClass.offensive count =>
    setOffensive1 (incScore1 (insertWord1 d word.toList) word.toList count) word.toList
  | WordClass.normal count =>
    incScore1 (insertWord1 d word.toList) word.toList count

/-- The dictionary built by
`wiktextract_preprocessor::read_wiktextract_data_into_dictionary`
(`prep_wiktextract.cpp` lines 262-296) from already-aggregated evidence: the
per-word insertion loop followed by `insert_project_specific_words` (lines
142-147), which inserts every configured word and increments its score by 1. -/
def readWiktextractIntoDictionary (pd : ParsedData) (isAlpha : Char → Bool)
    (projectSpecificWords : List String) : Dictionary :=
  let d := pd.foldl (fun d e => insertClassifiedWord d e.1 (classifyWord pd isAlpha e.1 e.2))
    Dictionary.init
  projectSpecificWords.foldl (fun d w => incScore1 (insertWord1 d w.toList) w.toList 1) d

/-- The word is present as a terminal of the dictionary's root trie. -/
def dictHasWord (d : Dictionary) (word : String) : Bool :=
  match d.root_node.resolveKey word.toList with
  | some n => n.is_terminal
  | none => false

/-- The words inserted by the per-word insertion pass alone (without the
project-specific words appended afterwards). -/
def mainInsertedWords (pd : ParsedData) (isAlpha : Char → Bool) : List String :=
  (pd.filter (fun e => ¬ classifyWord pd isAlpha e.1 e.2 = WordClass.excluded)).map (·.1)

end Wiktextract

section ClaimInputs

/-- The grapheme uppercase map for concrete `Char` runs; agrees with ICU on
ASCII. -/
def charUp : Char → Char := Char.toUpper

/-- The grapheme lowercase map for concrete `Char` runs; agrees with ICU on
ASCII. -/
def charLow : Char → Char := Char.toLower

/-- Modelled from the spec: the pruning predicate exactly as the spec states
it — at depth `p`, dead when `p < W - 1` and the diagonal cell reaches `max`,
or when `p ≥ W - 1` and the edit distance reaches `max` (spec section 4.6,
"Pruning").  Used only to compare against the source's `isDeadEndAt`. -/
def specClaimDeadEndAt {G : Type} [DecidableEq G] (w wOpp pchars : List G)
    (maxDistance p : Nat) : Bool :=
  if p < w.length - 1 then maxDistance ≤ dist w wOpp pchars p p
  else maxDistance ≤ editDistanceAt w wOpp pchars p

/-- A trie containing exactly the word "a" (terminal with default
properties). -/
def trieOnlyA : TrieNode Char :=
  TrieNode.mk false NgramProperties.default
    [('a', TrieNode.mk true NgramProperties.default [] none)] none

/-- A trie containing exactly the word "ab" with score 1000. -/
def trieOnlyAB : TrieNode Char :=
  TrieNode.mk false NgramProperties.default
    [('a', TrieNode.mk false NgramProperties.default
      [('b', TrieNode.mk true ⟨1000, false, false⟩ [] none)] none)] none

/-- A trie containing exactly the word "bb" with score 5, whose sole terminal
sits at depth 2. -/
def trieOnlyBB : TrieNode Char :=
  TrieNode.mk false NgramProperties.default
    [('b', TrieNode.mk false NgramProperties.default
      [('b', TrieNode.mk true ⟨5, false, false⟩ [] none)] none)] none

/-- The subsequent-words trie holding the single next word "cd" with score
2. -/
def subsequentCD : TrieNode Char :=
  TrieNode.mk false NgramProperties.default
    [('c', TrieNode.mk false NgramProperties.default
      [('d', TrieNode.mk true ⟨2, false, false⟩ [] none)] none)] none

/-- A dictionary with the unigram "ab" (score 1) carrying the bigram
("ab", "cd") (score 2), with matching max-score accumulators. -/
def dictAB_CD : Dictionary :=
  ⟨DictionaryHeader.init,
   TrieNode.mk false NgramProperties.default
     [('a', TrieNode.mk false NgramProperties.default
       [('b', TrieNode.mk true ⟨1, false, false⟩ [] (some subsequentCD))] none)] none,
   1, 2, 0⟩

/-- The bigram ("ab", ·) exists: the node resolved at "ab" carries a
subsequent-words trie. -/
def hasBigramUnderAB (d : Dictionary) : Bool :=
  match d.root_node.resolveKey ['a', 'b'] with
  | some n => n.subsequentWords.isSome
  | none => false

/-- A dictionary at the score-adjustment failing input: one unigram "a" with
`absolute_score = SCORE_MAX` and `max_unigram_score = SCORE_MAX`, which
exceeds `SCORE_ADJUSTMENT_THRESHOLD`. -/
def dictAtScoreMax : Dictionary :=
  ⟨DictionaryHeader.init,
   TrieNode.mk false NgramProperties.default
     [('a', TrieNode.mk true ⟨SCORE_MAX, false, false⟩ [] none)] none,
   SCORE_MAX, 0, 0⟩

/-- QWERTY proximity data for the key "a" (spec section 6.2). -/
def proximityDataA : List (String × List String) :=
  [("a", ["q", "w", "s", "z"])]

/-- Wiktextract evidence for the single word "bad" with one part of speech
whose only sense matched the exclusion filter. -/
def parsedDataBad : ParsedData :=
  [("bad", [("noun", ⟨[], 1, 0, 0⟩)])]

/-- ASCII alphabetic test standing in for ICU's `u_isalpha` on the concrete
inputs used here. -/
def asciiIsAlpha (c : Char) : Bool := c.isAlpha

/-- Wiktextract evidence for the single word "ok" with one part of speech
whose only sense was normal. -/
def parsedDataOk : ParsedData :=
  [("ok", [("noun", ⟨[], 0, 0, 1⟩)])]

/-- The pos-map of `parsedDataOk`'s single word. -/
def posMapOk : PosMap := [("noun", ⟨[], 0, 0, 1⟩)]

/-- A fresh mutable dictionary after `insert("a")` followed by one score
increment through the returned properties reference. -/
def dictAfterInsInc : Dictionary :=
  applyMutOps Dictionary.init [MutOp.ins1 ['a'], MutOp.inc1 ['a'] 1]

/-- The query "helol" as graphemes. -/
def queryHelol : List Char := ['h', 'e', 'l', 'o', 'l']

/-- The stored word "hello", obtained from "helol" by transposing the adjacent
distinct graphemes at positions 4 and 5. -/
def storedHello : List Char := ['h', 'e', 'l', 'l', 'o']

/-- Opposite-case table of "helol". -/
def queryHelolOpp : List Char := initWordCharsOppositeCase charUp charLow queryHelol

/-- The query "ab" as graphemes. -/
def queryAB : List Char := ['a', 'b']

/-- Opposite-case table of "ab". -/
def queryABOpp : List Char := initWordCharsOppositeCase charUp charLow queryAB

end ClaimInputs

/-! Helper lemmas shared by the claim theorems. -/

section Helpers

variable {G : Type}

/-- Elements of the candidate list produced by one callback iteration come
from the previous list or are the pushed candidate. -/
lemma mem_pushCandidate {m : Nat} {res : List (SuggestionCandidate G)}
    {c x : SuggestionCandidate G} (hx : x ∈ pushCandidate m res c) :
    x ∈ res ∨ x = c := by
  have hx' : x ∈ (res ++ [c]).insertionSort (fun a b => suggestionsSorter a b) := by
    simp only [pushCandidate] at hx
    split at hx
    · exact List.dropLast_subset _ hx
    · exact hx
  rcases List.mem_append.mp ((List.mem_insertionSort _).mp hx') with h | h
  · exact Or.inl h
  · exact Or.inr (List.mem_singleton.mp h)

/-- Folding the result callback preserves the all-confidences-one
invariant. -/
lemma confidence_one_of_mem_foldl (m : Nat) :
    ∀ (l : List (SearchResult G)) (acc : List (SuggestionCandidate G)),
      (∀ x ∈ acc, x.confidence = 1) →
      ∀ x ∈ l.foldl (fun res r => pushCandidate m res ⟨r.1, r.2.2, 1⟩) acc,
        x.confidence = 1
  | [], acc, hacc, x, hx => hacc x hx
  | r :: l, acc, hacc, x, hx => by
    refine confidence_one_of_mem_foldl m l _ ?_ x hx
    intro y hy
    rcases mem_pushCandidate hy with h | h
    · exact hacc y h
    · rw [h]

/-- With a zero suggestion cap, a pushed candidate is dropped immediately. -/
lemma pushCandidate_zero_nil (c : SuggestionCandidate G) :
    pushCandidate 0 ([] : List (SuggestionCandidate G)) c = [] := rfl

/-- With a zero suggestion cap, the callback fold stays empty. -/
lemma foldl_pushCandidate_zero :
    ∀ l : List (SearchResult G),
      l.foldl (fun res r => pushCandidate 0 res ⟨r.1, r.2.2, 1⟩) [] = []
  | [] => rfl
  | r :: l => by
    have h : pushCandidate 0 ([] : List (SuggestionCandidate G)) ⟨r.1, r.2.2, 1⟩ = [] :=
      pushCandidate_zero_nil _
    simpa [h] using foldl_pushCandidate_zero l

/-- In an association list with distinct keys, a key determines its value. -/
lemma value_eq_of_nodup_keys {α β : Type} {l : List (α × β)} {k : α} {v1 v2 : β}
    (h : (l.map Prod.fst).Nodup) (h1 : (k, v1) ∈ l) (h2 : (k, v2) ∈ l) : v1 = v2 := by
  induction l with
  | nil => cases h1
  | cons e l ih =>
    rcases List.mem_cons.mp h1 with he1 | he1 <;> rcases List.mem_cons.mp h2 with he2 | he2
    · exact congrArg Prod.snd (he1.trans he2.symm)
    · exfalso
      have hk : k ∈ l.map Prod.fst := List.mem_map.mpr ⟨(k, v2), he2, rfl⟩
      rw [← he1] at h
      exact (List.nodup_cons.mp h).1 hk
    · exfalso
      have hk : k ∈ l.map Prod.fst := List.mem_map.mpr ⟨(k, v1), he1, rfl⟩
      rw [← he2] at h
      exact (List.nodup_cons.mp h).1 hk
    · exact ih (List.nodup_cons.mp h).2 he1 he2

end Helpers

/-! Lemmas about the distance matrix on a query and a stored word that differ
by one adjacent transposition: query `a ++ x :: y :: b`, stored word
`a ++ y :: x :: b`. -/

section TransposeLemmas

variable {G : Type} [DecidableEq G]

/-- Row 0 of the matrix. -/
lemma dist_zero_row (w wOpp pchars : List G) (i : Nat) :
    dist w wOpp pchars 0 i = i * COST_INSERT := rfl

/-- Column 0 of the matrix. -/
lemma dist_zero_col (w wOpp pchars : List G) (p : Nat) :
    dist w wOpp pchars (p + 1) 0 = (p + 1) * COST_INSERT := rfl

/-- The recurrence of `setPrefixChstrAt` for an inner cell, when the involved
graphemes exist. -/
lemma dist_succ_succ (w wOpp pchars : List G) (p i : Nat) (g c oc : G)
    (hg : pchars.get? p = some g) (hc : w.get? i = some c)
    (hoc : wOpp.get? i = some oc) :
    dist w wOpp pchars (p + 1) (i + 1) =
      min (min (dist w wOpp pchars p (i + 1) + COST_INSERT)
               (dist w wOpp pchars (p + 1) i + COST_DELETE))
          (dist w wOpp pchars p i + substitutionCost w pchars g c oc p i) := by
  show distRowSucc w wOpp pchars (distRow w wOpp pchars p) p (i + 1) = _
  rw [distRowSucc, hg, hc, hoc]
  rfl

end TransposeLemmas

section TransposeListLemmas

variable {G : Type}

/-- Length of the two structured words. -/
lemma twLength (a : List G) (x y : G) (b : List G) :
    (a ++ x :: y :: b).length = a.length + 2 + b.length := by
  simp [List.length_append]
  omega

/-- Entry in the shared left region. -/
lemma twGet_left (a : List G) (x y : G) (b : List G) {i : Nat} (h : i < a.length) :
    (a ++ x :: y :: b).get? i = a.get? i :=
  List.get?_append h

/-- The first swapped entry. -/
lemma twGet_mid0 (a : List G) (x y : G) (b : List G) :
    (a ++ x :: y :: b).get? a.length = some x := by
  rw [List.get?_append_right (le_refl _), Nat.sub_self]
  rfl

/-- The second swapped entry. -/
lemma twGet_mid1 (a : List G) (x y : G) (b : List G) :
    (a ++ x :: y :: b).get? (a.length + 1) = some y := by
  rw [List.get?_append_right (by omega)]
  have : a.length + 1 - a.length = 1 := by omega
  rw [this]
  rfl

/-- Entry in the shared right region. -/
lemma twGet_right (a : List G) (x y : G) (b : List G) {i : Nat}
    (h : a.length + 2 ≤ i) :
    (a ++ x :: y :: b).get? i = b.get? (i - a.length - 2) := by
  rw [List.get?_append_right (by omega)]
  have : i - a.length = (i - a.length - 2) + 2 := by omega
  rw [this]
  rfl

/-- Any in-range index of the structured word holds some grapheme. -/
lemma twGet_isSome (a : List G) (x y : G) (b : List G) {i : Nat}
    (h : i < a.length + 2 + b.length) :
    ∃ g, (a ++ x :: y :: b).get? i = some g :=
  ⟨_, List.get?_eq_get (by rw [twLength]; exact h)⟩

end TransposeListLemmas

section TransposeOppLemma

variable {G : Type} [DecidableEq G]

/-- Opposite-case table entries are the opposite-case map of the word
entries. -/
lemma twOpp_get (up low : G → G) (w : List G) {i : Nat} {c : G}
    (hc : w.get? i = some c) :
    (initWordCharsOppositeCase up low w).get? i = some (oppositeCase up low c) := by
  rw [initWordCharsOppositeCase, List.get?_map, hc]
  rfl

end TransposeOppLemma

section TransposeMainLemmas

variable {G : Type} [DecidableEq G] (up low : G → G) (a : List G) (x y : G) (b : List G)

/-- In the rows matching the common left region, every cell is at least twice
its distance from the diagonal. -/
lemma dist_regionA_lb :
    ∀ p, p ≤ a.length → ∀ i, i ≤ a.length + 2 + b.length →
      2 * ((i - p) + (p - i)) ≤
        dist (a ++ x :: y :: b) (initWordCharsOppositeCase up low (a ++ x :: y :: b))
          (a ++ y :: x :: b) p i := by
  intro p
  induction p with
  | zero =>
    intro _ i _
    rw [dist_zero_row]
    simp only [COST_INSERT]
    omega
  | succ p ih =>
    intro hp i
    induction i with
    | zero =>
      intro _
      rw [dist_zero_col]
      simp only [COST_INSERT]
      omega
    | succ i ihi =>
      intro hW
      obtain ⟨g, hg⟩ := twGet_isSome a y x b (i := p) (by omega)
      obtain ⟨c, hc⟩ := twGet_isSome a x y b (i := i) (by omega)
      have hoc := twOpp_get up low (a ++ x :: y :: b) hc
      rw [dist_succ_succ _ _ _ _ _ g c _ hg hc hoc]
      have h1 := ih (by omega) (i + 1) hW
      have h2 := ihi (by omega)
      have h3 := ih (by omega) i (by omega)
      simp only [COST_INSERT, COST_DELETE]
      omega

/-- In the rows matching the common left region, the diagonal is zero. -/
lemma dist_regionA_diag :
    ∀ p, p ≤ a.length →
      dist (a ++ x :: y :: b) (initWordCharsOppositeCase up low (a ++ x :: y :: b))
        (a ++ y :: x :: b) p p = 0 := by
  intro p
  induction p with
  | zero => intro _; rfl
  | succ p ih =>
    intro hp
    have hlt : p < a.length := by omega
    obtain ⟨gp, hgp⟩ : ∃ gp, a.get? p = some gp := ⟨_, List.get?_eq_get hlt⟩
    have hg : (a ++ y :: x :: b).get? p = some gp := by
      rw [twGet_left a y x b hlt]; exact hgp
    have hc : (a ++ x :: y :: b).get? p = some gp := by
      rw [twGet_left a x y b hlt]; exact hgp
    have hoc := twOpp_get up low (a ++ x :: y :: b) hc
    rw [dist_succ_succ _ _ _ _ _ gp gp _ hg hc hoc]
    have hsub : substitutionCost (a ++ x :: y :: b) (a ++ y :: x :: b) gp gp
        (oppositeCase up low gp) p p = 0 := by
      simp [substitutionCost, COST_IS_EQUAL]
    rw [hsub, ih (by omega)]
    omega

/-- Substitution cost at the first cell of the swap, matrix position
`(a.length + 1, a.length + 1)`: the graphemes are `y` against `x`, no branch
before the default applies, and the start-of-string penalty is off because the
swap sits after position 1. -/
lemma subCost_swap_first (ha : a ≠ []) (hxy : x ≠ y)
    (hox : oppositeCase up low x ≠ y) :
    substitutionCost (a ++ x :: y :: b) (a ++ y :: x :: b) y x
      (oppositeCase up low x) a.length a.length =
      COST_SUBSTITUTE_DEFAULT + PENALTY_DEFAULT := by
  have hA : 0 < a.length := List.length_pos.mpr ha
  have htrans : ¬ (0 < a.length ∧ 0 < a.length ∧
      (a ++ y :: x :: b).get? (a.length - 1) = some x ∧
      (a ++ x :: y :: b).get? (a.length - 1) = some y) := by
    rintro ⟨-, -, h1, h2⟩
    have hlt : a.length - 1 < a.length := by omega
    rw [twGet_left a y x b hlt] at h1
    rw [twGet_left a x y b hlt] at h2
    exact hxy (Option.some.inj (h1.symm.trans h2))
  simp only [substitutionCost]
  rw [if_neg (show ¬ (x = y) from hxy)]
  rw [if_neg (show ¬ (oppositeCase up low x = y) from hox)]
  rw [if_neg htrans]
  rw [if_neg (show ¬ (a.length = 0 ∧ a.length = 0) from fun h => absurd h.1 (by omega))]

/-- Substitution cost at the second cell of the swap, matrix position
`(a.length + 2, a.length + 2)`: the graphemes are `x` against `y` and the
transposition branch fires with zero total cost. -/
lemma subCost_swap_second (hxy : x ≠ y) (hoy : oppositeCase up low y ≠ x) :
    substitutionCost (a ++ x :: y :: b) (a ++ y :: x :: b) x y
      (oppositeCase up low y) (a.length + 1) (a.length + 1) = 0 := by
  have htrans : 0 < a.length + 1 ∧ 0 < a.length + 1 ∧
      (a ++ y :: x :: b).get? (a.length + 1 - 1) = some y ∧
      (a ++ x :: y :: b).get? (a.length + 1 - 1) = some x := by
    refine ⟨by omega, by omega, ?_, ?_⟩
    · rw [Nat.add_sub_cancel]
      exact twGet_mid0 a y x b
    · rw [Nat.add_sub_cancel]
      exact twGet_mid0 a x y b
  simp only [substitutionCost]
  rw [if_neg (show ¬ (y = x) from fun h => hxy h.symm)]
  rw [if_neg (show ¬ (oppositeCase up low y = x) from hoy)]
  rw [if_pos htrans]
  rw [if_neg (show ¬ (a.length + 1 = 0 ∧ a.length + 1 = 0) from fun h => by omega)]
  decide

/-- Every cell of the first row past the common region is at least 2. -/
lemma dist_rowK_lb (ha : a ≠ []) (hxy : x ≠ y)
    (hox : oppositeCase up low x ≠ y) :
    ∀ i, i ≤ a.length + 2 + b.length →
      2 ≤ dist (a ++ x :: y :: b) (initWordCharsOppositeCase up low (a ++ x :: y :: b))
        (a ++ y :: x :: b) (a.length + 1) i := by
  intro i
  induction i with
  | zero =>
    intro _
    rw [dist_zero_col]
    simp only [COST_INSERT]
    omega
  | succ i ihi =>
    intro hW
    obtain ⟨c, hc⟩ := twGet_isSome a x y b (i := i) (by omega)
    have hoc := twOpp_get up low (a ++ x :: y :: b) hc
    rw [dist_succ_succ _ _ _ _ _ y c _ (twGet_mid0 a y x b) hc hoc]
    by_cases hi : i = a.length
    · subst hi
      have hcx : c = x := by
        rw [twGet_mid0 a x y b] at hc
        exact (Option.some.inj hc).symm
      rw [hcx]
      have hdiag := dist_regionA_diag up low a x y b a.length (le_refl _)
      have hsub := subCost_swap_first up low a x y b ha hxy hox
      rw [hdiag, hsub]
      simp only [COST_INSERT, COST_DELETE, COST_SUBSTITUTE_DEFAULT, PENALTY_DEFAULT]
      omega
    · have h3 := dist_regionA_lb up low a x y b a.length (le_refl _) i (by omega)
      simp only [COST_INSERT, COST_DELETE]
      omega

/-- Every cell of every row past the common region is at least 2. -/
lemma dist_tail_lb (ha : a ≠ []) (hxy : x ≠ y)
    (hox : oppositeCase up low x ≠ y) :
    ∀ p, a.length + 1 ≤ p → p ≤ a.length + 2 + b.length →
      ∀ i, i ≤ a.length + 2 + b.length →
        2 ≤ dist (a ++ x :: y :: b) (initWordCharsOppositeCase up low (a ++ x :: y :: b))
          (a ++ y :: x :: b) p i := by
  intro p hp1
  induction p, hp1 using Nat.le_induction with
  | base =>
    intro _ i hW
    exact dist_rowK_lb up low a x y b ha hxy hox i hW
  | succ p hp ih =>
    intro hpW i
    induction i with
    | zero =>
      intro _
      rw [dist_zero_col]
      simp only [COST_INSERT]
      omega
    | succ i ihi =>
      intro hW
      obtain ⟨g, hg⟩ := twGet_isSome a y x b (i := p) (by omega)
      obtain ⟨c, hc⟩ := twGet_isSome a x y b (i := i) (by omega)
      have hoc := twOpp_get up low (a ++ x :: y :: b) hc
      rw [dist_succ_succ _ _ _ _ _ g c _ hg hc hoc]
      have h3 := ih (by omega) i (by omega)
      simp only [COST_INSERT, COST_DELETE]
      omega

/-- Upper bound 2 at the first diagonal cell of the swap. -/
lemma dist_swap_first_ub (ha : a ≠ []) (hxy : x ≠ y)
    (hox : oppositeCase up low x ≠ y) :
    dist (a ++ x :: y :: b) (initWordCharsOppositeCase up low (a ++ x :: y :: b))
      (a ++ y :: x :: b) (a.length + 1) (a.length + 1) ≤ 2 := by
  have hoc := twOpp_get up low (a ++ x :: y :: b) (twGet_mid0 a x y b)
  rw [dist_succ_succ _ _ _ _ _ y x _ (twGet_mid0 a y x b) (twGet_mid0 a x y b) hoc]
  have hdiag := dist_regionA_diag up low a x y b a.length (le_refl _)
  have hsub := subCost_swap_first up low a x y b ha hxy hox
  rw [hdiag, hsub]
  simp only [COST_SUBSTITUTE_DEFAULT, PENALTY_DEFAULT]
  omega

/-- Upper bound 2 at the second diagonal cell of the swap, via the
transposition branch. -/
lemma dist_swap_second_ub (ha : a ≠ []) (hxy : x ≠ y)
    (hox : oppositeCase up low x ≠ y) (hoy : oppositeCase up low y ≠ x) :
    dist (a ++ x :: y :: b) (initWordCharsOppositeCase up low (a ++ x :: y :: b))
      (a ++ y :: x :: b) (a.length + 2) (a.length + 2) ≤ 2 := by
  have hoc := twOpp_get up low (a ++ x :: y :: b) (twGet_mid1 a x y b)
  rw [show a.length + 2 = (a.length + 1) + 1 from rfl]
  rw [dist_succ_succ _ _ _ _ _ x y _ (twGet_mid1 a y x b) (twGet_mid1 a x y b) hoc]
  have h1 := dist_swap_first_ub up low a x y b ha hxy hox
  have hsub := subCost_swap_second up low a x y b hxy hoy
  rw [hsub]
  omega

/-- Upper bound 2 on the whole tail diagonal, where the words agree again. -/
lemma dist_diag_tail_ub (ha : a ≠ []) (hxy : x ≠ y)
    (hox : oppositeCase up low x ≠ y) (hoy : oppositeCase up low y ≠ x) :
    ∀ j, a.length + 2 ≤ j → j ≤ a.length + 2 + b.length →
      dist (a ++ x :: y :: b) (initWordCharsOppositeCase up low (a ++ x :: y :: b))
        (a ++ y :: x :: b) j j ≤ 2 := by
  intro j hj1
  induction j, hj1 using Nat.le_induction with
  | base =>
    intro _
    exact dist_swap_second_ub up low a x y b ha hxy hox hoy
  | succ j hj ih =>
    intro hjW
    obtain ⟨c, hc⟩ := twGet_isSome a x y b (i := j) (by omega)
    have hg : (a ++ y :: x :: b).get? j = some c := by
      rw [twGet_right a y x b (by omega), ← twGet_right a x y b (by omega)]
      exact hc
    have hoc := twOpp_get up low (a ++ x :: y :: b) hc
    rw [dist_succ_succ _ _ _ _ _ c c _ hg hc hoc]
    have hsub : substitutionCost (a ++ x :: y :: b) (a ++ y :: x :: b) c c
        (oppositeCase up low c) j j = 0 := by
      simp [substitutionCost, COST_IS_EQUAL]
    rw [hsub]
    have h3 := ih (by omega)
    omega

end TransposeMainLemmas

/-! Claim theorems. -/

/-- C1 (counterexample): on the dictionary containing only "ab" with score
1000 and `max_unigram_score = 1000`, `spell("ba")` produces a candidate whose
confidence is the constant 1, which exceeds the claimed 0.9 bound and differs
from the claimed clamped ratio `min 0.9 (1000 / 1000)`. -/
theorem spell_confidence_exceeds_reserved_band :
    (spellCandidates charUp charLow trieOnlyAB ⟨8⟩ ['b', 'a']).map (·.confidence) = [1] ∧
    ¬ ((1 : Rat) ≤ 9 / 10) ∧ (1 : Rat) ≠ min (9 / 10) (1000 / 1000) := by
  refine ⟨by decide, by norm_num, by norm_num⟩

/-- C1 (amended): every candidate accumulated by `spell` or by `suggest` has
confidence exactly 1; the normalization `absolute_score / max_unigram_score`
and the clamp into [0, 0.9] are absent from the code (the division is
commented out), so every emitted candidate sits in the band the spec reserves
for caller-injected candidates. -/
theorem spell_suggest_confidence_always_one {G : Type} [DecidableEq G]
    (up low : G → G) (root : TrieNode G) (flags : SuggestionRequestFlags)
    (w : List G) (c : SuggestionCandidate G) :
    (c ∈ spellCandidates up low root flags w → c.confidence = 1) ∧
    (c ∈ suggest up low root w flags → c.confidence = 1) := by
  constructor
  · intro hc
    exact confidence_one_of_mem_foldl _ _ [] (by intro x hx; cases hx) c hc
  · intro hc
    unfold suggest at hc
    split at hc
    · cases hc
    · exact confidence_one_of_mem_foldl _ _ [] (by intro x hx; cases hx) c hc

/-- C1 (witness): the candidate produced for the query "ba" on the dictionary
containing only "ab" is in the spell results, and the theorem yields that its
confidence is 1. -/
theorem spell_suggest_confidence_always_one_witness :
    (⟨['a', 'b'], 4, 1⟩ : SuggestionCandidate Char) ∈
      spellCandidates charUp charLow trieOnlyAB ⟨8⟩ ['b', 'a'] ∧
    (⟨['a', 'b'], 4, 1⟩ : SuggestionCandidate Char).confidence = 1 :=
  ⟨by decide,
   (spell_suggest_confidence_always_one charUp charLow trieOnlyAB ⟨8⟩ ['b', 'a']
     ⟨['a', 'b'], 4, 1⟩).1 (by decide)⟩

/-- C2: with the trie storing exactly the query word "a" as a terminal, a
fuzzy search of type `ProximityWithoutSelf` emits the candidate "a" — equal to
the query — with cost 0.  The comparison helper `strcmp` of
`dictionary_session.cpp` lines 38-44 exists for this suppression but is never
called, and the `type` field of the search state is never read, so the claimed
skip rule is absent from the executed code. -/
theorem proximity_without_self_emits_query :
    fuzzySearch charUp charLow trieOnlyA FuzzySearchType.ProximityWithoutSelf
      MAX_COST ⟨8⟩ ['a'] = [(['a'], NgramProperties.default, 0)] := by decide

/-- C3 (counterexample): the stored word "hello" is obtained from the query
"helol" by transposing the adjacent distinct graphemes at positions 4 and 5
(after the first position); the fuzzy search reports its cost as 2, not the
claimed `COST_TRANSPOSE + PENALTY_DEFAULT = 1`. -/
theorem transposition_cost_is_not_one :
    editDistanceAt queryHelol queryHelolOpp storedHello storedHello.length = 2 ∧
    (2 : Nat) ≠ COST_TRANSPOSE + PENALTY_DEFAULT := by
  refine ⟨by decide, by decide⟩

/-- C3 (amended): for every stored word obtained from the query word by
transposing one adjacent pair of distinct graphemes at positions after the
first — provided neither swapped grapheme is the opposite-case form of the
other — the fuzzy search reports the cost as exactly
`COST_TRANSPOSE + 1 + PENALTY_DEFAULT`, i.e. exactly 2: the code adds
`COST_TRANSPOSE - 1` on top of the diagonal cell, which already paid one
default substitution for the first half of the swap. -/
theorem transposed_word_cost_exactly_two {G : Type} [DecidableEq G]
    (up low : G → G) (a : List G) (x y : G) (b : List G)
    (ha : a ≠ []) (hxy : x ≠ y)
    (hox : oppositeCase up low x ≠ y) (hoy : oppositeCase up low y ≠ x) :
    editDistanceAt (a ++ x :: y :: b)
      (initWordCharsOppositeCase up low (a ++ x :: y :: b))
      (a ++ y :: x :: b) (a ++ y :: x :: b).length =
      COST_TRANSPOSE + 1 + PENALTY_DEFAULT := by
  unfold editDistanceAt
  rw [twLength a y x b, twLength a x y b]
  have hlb := dist_tail_lb up low a x y b ha hxy hox (a.length + 2 + b.length)
    (by omega) (le_refl _) (a.length + 2 + b.length) (le_refl _)
  have hub := dist_diag_tail_ub up low a x y b ha hxy hox hoy (a.length + 2 + b.length)
    (by omega) (le_refl _)
  simp only [COST_TRANSPOSE, PENALTY_DEFAULT]
  omega

/-- C3 (witness): instantiating the transposed pair ('o','l') after the stem
"hel" gives the query "helol" against the stored word "hello", with cost
exactly 2. -/
theorem transposed_word_cost_exactly_two_witness :
    (['h', 'e', 'l'] : List Char) ≠ [] ∧ 'o' ≠ 'l' ∧
    oppositeCase charUp charLow 'o' ≠ 'l' ∧ oppositeCase charUp charLow 'l' ≠ 'o' ∧
    editDistanceAt (['h', 'e', 'l'] ++ 'o' :: 'l' :: [])
      (initWordCharsOppositeCase charUp charLow (['h', 'e', 'l'] ++ 'o' :: 'l' :: []))
      (['h', 'e', 'l'] ++ 'l' :: 'o' :: [])
      ((['h', 'e', 'l'] ++ 'l' :: 'o' :: [] : List Char)).length =
      COST_TRANSPOSE + 1 + PENALTY_DEFAULT :=
  ⟨by decide, by decide, by decide, by decide,
   transposed_word_cost_exactly_two charUp charLow ['h', 'e', 'l'] 'o' 'l' []
     (by decide) (by decide) (by decide) (by decide)⟩

/-- C4: on a dictionary whose `max_unigram_score` equals `SCORE_MAX` — far
above `SCORE_ADJUSTMENT_THRESHOLD = SCORE_MAX - 128` — calling
`adjustScoresIfNecessary` leaves the unigram score and the accumulator
untouched (its entire body is commented out) and returns `true`, while the
claim demands both be halved. -/
theorem adjust_scores_leaves_dictionary_unchanged :
    (adjustScoresIfNecessary dictAtScoreMax).1.max_unigram_score = SCORE_MAX ∧
    ((adjustScoresIfNecessary dictAtScoreMax).1.root_node.resolveKey ['a']).map
      (fun n => n.properties.absolute_score) = some SCORE_MAX ∧
    (adjustScoresIfNecessary dictAtScoreMax).2 = true ∧
    SCORE_ADJUSTMENT_THRESHOLD < dictAtScoreMax.max_unigram_score ∧
    SCORE_MAX / 2 ≠ SCORE_MAX := by
  refine ⟨rfl, by decide, rfl, by decide, by decide⟩

/-- C5: starting from a fresh mutable dictionary, `insert("a")` followed by
one score increment through the returned properties reference leaves
`max_unigram_score` at 0 while the unigram terminal "a" has absolute score 1,
so the claimed bound `max_unigram_score ≥ max absolute_score` fails
(`MutableDictionary::insert` never updates any `max_*_score`). -/
theorem insert_and_increment_break_max_score_bound :
    dictAfterInsInc.max_unigram_score = 0 ∧
    (dictAfterInsInc.root_node.resolveKey ['a']).map
      (fun n => (n.properties.absolute_score, n.is_terminal)) = some (1, true) ∧
    ¬ (1 ≤ dictAfterInsInc.max_unigram_score) := by
  refine ⟨rfl, by decide, by decide⟩

/-- C6: the dictionary `dictAB_CD` stores the ASCII unigram "ab" and, under
its terminal, the bigram word "cd"; after `serialize` and `deserialize`, the
node at "ab" has lost its subsequent-words trie (the deserializer attaches the
level-2 line to the root node's subsequent-words trie instead, because it
never refreshes `prev_parent_nodes` after an insertion), so the round trip is
not structurally equal to the original. -/
theorem serialize_deserialize_misplaces_bigram :
    hasBigramUnderAB dictAB_CD = true ∧
    (match deserialize (serialize dictAB_CD) with
     | Except.ok d => hasBigramUnderAB d
     | Except.error _ => true) = false ∧
    (match deserialize (serialize dictAB_CD) with
     | Except.ok d => d.root_node.subsequentWords.isSome
     | Except.error _ => false) = true := by
  refine ⟨rfl, by decide, by decide⟩

/-- C7 (counterexample): query "ab" has W = 2 graphemes; at depth p = 1 = W-1
with the trie path "b" and bound 4, the code's dead-end test fires (the
diagonal cell `distances[1][1] = 4` reaches the bound) although the claimed
rule — which at `p ≥ W - 1` compares the full edit distance
`distances[1][2] = 2` — says the branch survives; consequently the search on
the trie storing only "bb" returns nothing even though "bb" lies within the
bound (edit distance 4 ≤ 4). -/
theorem dead_end_boundary_counterexample :
    isDeadEndAt queryAB queryABOpp ['b'] 4 1 = true ∧
    specClaimDeadEndAt queryAB queryABOpp ['b'] 4 1 = false ∧
    fuzzySearch charUp charLow trieOnlyBB FuzzySearchType.Proximity 4 ⟨8⟩ queryAB = [] ∧
    editDistanceAt queryAB queryABOpp ['b', 'b'] 2 ≤ 4 := by
  refine ⟨by decide, by decide, by decide, by decide⟩

/-- C7 (amended): a branch at depth p is abandoned exactly when `p < W` and
`distances[p][p] ≥ max`, or `p ≥ W` and the edit distance at p is ≥ max — the
boundary between the two regimes is W (the code compares `prefix_index`
against `word_chars.size() - 1`, which is the grapheme count W), not W - 1 as
claimed. -/
theorem dead_end_boundary_exact {G : Type} [DecidableEq G]
    (w wOpp pchars : List G) (maxDistance p : Nat) :
    isDeadEndAt w wOpp pchars maxDistance p = true ↔
      (p < w.length ∧ maxDistance ≤ dist w wOpp pchars p p) ∨
      (w.length ≤ p ∧ maxDistance ≤ editDistanceAt w wOpp pchars p) := by
  unfold isDeadEndAt
  split
  · next h => simp only [decide_eq_true_eq]; omega
  · next h => simp only [decide_eq_true_eq]; omega

/-- C8: the key-proximity map (QWERTY row for "a") reports that "s" is in
proximity of "a", and with the first three branches failing (no equality, no
opposite-case match, no transposition) the substitution cost computed by the
code is still `COST_SUBSTITUTE_DEFAULT + PENALTY_DEFAULT = 2`, not the claimed
`COST_SUBSTITUTE_IN_PROXIMITY + PENALTY_DEFAULT = 1`: the proximity branch of
`setPrefixChstrAt` is commented out (`dictionary_session.cpp` lines 189-190). -/
theorem proximity_substitution_cost_not_used :
    isInProximity proximityDataA "s" "a" = true ∧
    substitutionCost (["h", "a"] : List String) ["h", "s"] "s" "a" "A" 1 1 =
      COST_SUBSTITUTE_DEFAULT + PENALTY_DEFAULT ∧
    COST_SUBSTITUTE_DEFAULT + PENALTY_DEFAULT ≠
      COST_SUBSTITUTE_IN_PROXIMITY + PENALTY_DEFAULT := by
  refine ⟨by decide, by decide, by decide⟩

/-- C10: when the low 8 bits of the request flags are 0, every candidate is
dropped right after insertion (`results.size() > 0` always holds after a
push), so `suggest` returns an empty list for every non-empty word, and
`spell` on a non-empty word that does not resolve to a terminal returns the
typo result with an empty suggestion list. -/
theorem zero_max_suggestion_count_yields_empty_results {G : Type} [DecidableEq G]
    (up low : G → G) (root : TrieNode G) (w : List G) (flags : SuggestionRequestFlags)
    (hmax : flags.maxSuggestionCount = 0) (hw : w ≠ []) :
    suggest up low root w flags = [] ∧
    (isWordInTrie root w = false →
      spell up low root w flags = SpellingResult.typo []) := by
  have hfold : ∀ l : List (SearchResult G),
      l.foldl (fun res r => pushCandidate flags.maxSuggestionCount res
        ⟨r.1, r.2.2, 1⟩) [] = [] := by
    intro l
    rw [hmax]
    exact foldl_pushCandidate_zero l
  constructor
  · unfold suggest
    rw [if_neg hw]
    exact hfold _
  · intro hres
    have hcand : spellCandidates up low root flags w = [] := hfold _
    unfold spell
    rw [if_neg hw]
    unfold isWordInTrie at hres
    rcases hmatch : root.resolveKey w with _ | node
    · simp only [hcand, List.map_nil]
    · rw [hmatch] at hres
      simp only at hres
      simp [hres, hcand]

/-- C10 (witness): with raw flags 0x100 (max suggestion count 0), the query
"b" against the dictionary containing only "ab" gets an empty suggestion list
from `suggest` and a typo result with no suggestions from `spell`. -/
theorem zero_max_suggestion_count_yields_empty_results_witness :
    (⟨256⟩ : SuggestionRequestFlags).maxSuggestionCount = 0 ∧
    (['b'] : List Char) ≠ [] ∧
    isWordInTrie trieOnlyAB ['b'] = false ∧
    suggest charUp charLow trieOnlyAB ['b'] ⟨256⟩ = [] ∧
    spell charUp charLow trieOnlyAB ['b'] ⟨256⟩ = SpellingResult.typo [] :=
  ⟨by decide, by decide, by decide,
   (zero_max_suggestion_count_yields_empty_results charUp charLow trieOnlyAB ['b'] ⟨256⟩
     (by decide) (by decide)).1,
   (zero_max_suggestion_count_yields_empty_results charUp charLow trieOnlyAB ['b'] ⟨256⟩
     (by decide) (by decide)).2 (by decide)⟩

/-- C9 (counterexample): the word "bad" — excluded by the per-word decision
(its only sense matched the exclusion rules) — nevertheless ends up in the
output dictionary when it is listed under `projectSpecificWords`, because
`insert_project_specific_words` runs unconditionally after the insertion
loop. -/
theorem excluded_word_inserted_via_project_words :
    classifyWord parsedDataBad asciiIsAlpha "bad" [("noun", ⟨[], 1, 0, 0⟩)] =
      WordClass.excluded ∧
    dictHasWord (readWiktextractIntoDictionary parsedDataBad asciiIsAlpha ["bad"]) "bad" =
      true ∧
    mainInsertedWords parsedDataBad asciiIsAlpha = [] := by
  refine ⟨by decide, by decide, by decide⟩

/-- C9 (amended): a word is excluded exactly when the plain merged evaluator
or the form-of-aware merged evaluator satisfies
`exclusion_count ≥ offensive_count ∧ exclusion_count ≥ normal_count`, or some
codepoint is neither alphabetic nor apostrophe nor hyphen; excluded words are
never inserted by the per-word insertion pass (but a word listed in
`projectSpecificWords` is inserted afterwards regardless, even if excluded). -/
theorem wiktextract_exclusion_decision (pd : ParsedData) (isAlpha : Char → Bool)
    (w : String) (pm : PosMap) (hmem : (w, pm) ∈ pd)
    (hnodup : (pd.map Prod.fst).Nodup) :
    (classifyWord pd isAlpha w pm = WordClass.excluded ↔
      ((mergedPlain pd pm).offensive_count ≤ (mergedPlain pd pm).exclusion_count ∧
        (mergedPlain pd pm).normal_count ≤ (mergedPlain pd pm).exclusion_count) ∨
      ((mergedWithFo pd pm).offensive_count ≤ (mergedWithFo pd pm).exclusion_count ∧
        (mergedWithFo pd pm).normal_count ≤ (mergedWithFo pd pm).exclusion_count) ∨
      (∃ c ∈ w.toList, ¬ (isAlpha c = true ∨ c = '\'' ∨ c = '-'))) ∧
    (classifyWord pd isAlpha w pm = WordClass.excluded →
      w ∉ mainInsertedWords pd isAlpha) := by
  have e1 : (mergedPlain pd pm).is_word_excluded = true ↔
      ((mergedPlain pd pm).offensive_count ≤ (mergedPlain pd pm).exclusion_count ∧
        (mergedPlain pd pm).normal_count ≤ (mergedPlain pd pm).exclusion_count) := by
    simp [WordEvaluator.is_word_excluded]
  have e2 : (mergedWithFo pd pm).is_word_excluded = true ↔
      ((mergedWithFo pd pm).offensive_count ≤ (mergedWithFo pd pm).exclusion_count ∧
        (mergedWithFo pd pm).normal_count ≤ (mergedWithFo pd pm).exclusion_count) := by
    simp [WordEvaluator.is_word_excluded]
  have e3 : ¬ validateWord isAlpha w = true ↔
      (∃ c ∈ w.toList, ¬ (isAlpha c = true ∨ c = '\'' ∨ c = '-')) := by
    rw [validateWord, Bool.not_eq_true, List.all_eq_false]
    refine exists_congr fun c => and_congr_right fun _ => not_congr ?_
    simp only [Bool.or_eq_true, decide_eq_true_eq]
    tauto
  constructor
  · simp only [classifyWord]
    by_cases h1 : ((mergedPlain pd pm).is_word_excluded ||
        (mergedWithFo pd pm).is_word_excluded) = true
    · rw [if_pos h1]
      simp only [Bool.or_eq_true] at h1
      refine ⟨fun _ => ?_, fun _ => rfl⟩
      rcases h1 with h | h
      · exact Or.inl (e1.mp h)
      · exact Or.inr (Or.inl (e2.mp h))
    · rw [if_neg h1]
      simp only [Bool.or_eq_true, not_or] at h1
      by_cases h2 : validateWord isAlpha w = true
      · rw [if_neg (not_not_intro h2)]
        constructor
        · intro h
          split at h <;> cases h
        · intro hrhs
          exfalso
          rcases hrhs with ha | hb | hc
          · exact h1.1 (e1.mpr ha)
          · exact h1.2 (e2.mpr hb)
          · exact (e3.mpr hc) h2
      · rw [if_pos h2]
        exact ⟨fun _ => Or.inr (Or.inr (e3.mp h2)), fun _ => rfl⟩
  · intro hexcl hwmem
    rcases List.mem_map.mp hwmem with ⟨e, hef, heq⟩
    rcases List.mem_filter.mp hef with ⟨hepd, hpred⟩
    obtain ⟨w', pm'⟩ := e
    simp only at heq
    subst heq
    have hpm : pm' = pm := value_eq_of_nodup_keys hnodup hepd hmem
    subst hpm
    simp only [decide_eq_true_eq] at hpred
    exact hpred hexcl

/-- C9 (witness): the decision characterization instantiated on the one-word
evidence for "ok", whose exclusion decision is negative and whose word is
inserted by the main pass. -/
theorem wiktextract_exclusion_decision_witness :
    ("ok", posMapOk) ∈ parsedDataOk ∧ (parsedDataOk.map Prod.fst).Nodup ∧
    ((classifyWord parsedDataOk asciiIsAlpha "ok" posMapOk = WordClass.excluded ↔
      ((mergedPlain parsedDataOk posMapOk).offensive_count ≤
          (mergedPlain parsedDataOk posMapOk).exclusion_count ∧
        (mergedPlain parsedDataOk posMapOk).normal_count ≤
          (mergedPlain parsedDataOk posMapOk).exclusion_count) ∨
      ((mergedWithFo parsedDataOk posMapOk).offensive_count ≤
          (mergedWithFo parsedDataOk posMapOk).exclusion_count ∧
        (mergedWithFo parsedDataOk posMapOk).normal_count ≤
          (mergedWithFo parsedDataOk posMapOk).exclusion_count) ∨
      (∃ c ∈ "ok".toList, ¬ (asciiIsAlpha c = true ∨ c = '\'' ∨ c = '-'))) ∧
    (classifyWord parsedDataOk asciiIsAlpha "ok" posMapOk = WordClass.excluded →
      "ok" ∉ mainInsertedWords parsedDataOk asciiIsAlpha)) :=
  ⟨by decide, by decide,
   wiktextract_exclusion_decision parsedDataOk asciiIsAlpha "ok" posMapOk
     (by decide) (by decide)⟩

end FlorisNlp
